import Mathlib

/-!
Verification of the wordle-leaderboard bot (main.go).

The development shallowly embeds the result-parsing and scoring engine:

* `processWordleResultsMessage` — the text extractor: per line, the first
  match of the pattern digits-slash-six or the literal X-slash-six picks the
  line score, and every token of an at-sign followed by non-space characters
  names a player; the daily map is built by assignment, later lines
  overwriting earlier ones.
* `updateCumulativeScore` / `updateScoresBasedOnResults` — the scoring
  engine over a list-of-rows model of the leaderboard table (usernames are
  unique in the real table; theorems take that as a hypothesis where it
  matters).  The run is modelled as the trace of update calls the two Go
  loops issue (`scoringWrites`), folded over the ledger.
* `sendLeaderboard` — the renderer's row selection and ordering: rows with
  days_played > 0, ordered by average score ascending, then days_played
  descending, then username ascending.  The SQL engine evaluates
  score * 1.0 / days_played in IEEE-754 double precision: both operands are
  converted to doubles (rounding to nearest, ties to even) and the quotient
  is rounded the same way.  The embedding models doubles exactly as scaled
  integers m * 2 ^ e and implements the two conversions and the division
  with explicit round-to-nearest-even, so distinct real averages that
  collapse to the same double (first reachable at scores around 2 ^ 53)
  collapse in the model too.

Additions of int64 values in the source (cumulative score and day counts)
wrap on overflow; the embedding applies `wrap64` where the source adds.
-/

namespace WordleLeaderboard

set_option maxRecDepth 16384

/-- Whitespace characters of the regexp shorthand class backslash-s in Go's
regexp package: tab, newline, form feed, carriage return and space. -/
def isRegexpSpace (c : Char) : Bool :=
  c = '\t' || c = '\n' || c = '\u000C' || c = '\r' || c = ' '

/-- Whitespace characters recognised by Go's unicode.IsSpace, used by
strings.TrimSpace. -/
def isGoSpace (c : Char) : Bool :=
  c = '\t' || c = '\n' || c = '\u000B' || c = '\u000C' || c = '\r' || c = ' ' ||
  c = '\u0085' || c = '\u00A0' || c = '\u1680' ||
  ('\u2000' ≤ c && c ≤ '\u200A') ||
  c = '\u2028' || c = '\u2029' || c = '\u202F' || c = '\u205F' || c = '\u3000'

/-- strings.Split(message, newline): split a character list at newline
characters, keeping empty pieces. -/
def splitLines : List Char → List (List Char)
  | [] => [[]]
  | c :: rest =>
    let r := splitLines rest
    if c = '\n' then [] :: r
    else
      match r with
      | [] => [[c]]
      | l :: ls => (c :: l) :: ls

/-- A score token found by the score regexp: either a run of digits before
the slash-six suffix, or the literal X token. -/
inductive ScoreTok where
  | num (digits : List Char)
  | unsolved
deriving DecidableEq

/-- Leftmost match of the score regexp (digits followed by slash-six, or the
literal X followed by slash-six) on one line, as regexp.FindString computes
it: positions are tried left to right; at a digit position the maximal digit
run must be followed by the slash-six suffix. -/
def findScoreToken : List Char → Option ScoreTok
  | [] => none
  | c :: rest =>
    if c.isDigit then
      match (c :: rest).dropWhile Char.isDigit with
      | '/' :: '6' :: _ => some (ScoreTok.num ((c :: rest).takeWhile Char.isDigit))
      | _ => findScoreToken rest
    else if c = 'X' then
      match rest with
      | '/' :: '6' :: _ => some ScoreTok.unsolved
      | _ => findScoreToken rest
    else findScoreToken rest

/-- All matches of the mention regexp (an at sign followed by one or more
non-space characters), leftmost and non-overlapping, greedy, as
regexp.FindAllString computes them.  The first argument is fuel bounding the
recursion; `findMentions` supplies the input length, which always suffices. -/
def findMentionsAux : Nat → List Char → List (List Char)
  | 0, _ => []
  | _, [] => []
  | fuel + 1, c :: rest =>
    if c = '@' then
      let run := rest.takeWhile (fun x => !isRegexpSpace x)
      if run.isEmpty then findMentionsAux fuel rest
      else ('@' :: run) :: findMentionsAux fuel (rest.drop run.length)
    else findMentionsAux fuel rest

/-- All mention-regexp matches on one line. -/
def findMentions (l : List Char) : List (List Char) :=
  findMentionsAux l.length l

/-- Numeric value of a digit string, as an unbounded natural number. -/
def digitsToNat (ds : List Char) : Nat :=
  ds.foldl (fun a c => 10 * a + (c.toNat - 48)) 0

/-- Largest value of Go's 64-bit int. -/
def intMax : Int := 9223372036854775807

/-- strconv.Atoi on a digit string with the error ignored: the parsed value,
clamped to the largest 64-bit int on overflow (ParseInt returns the maximum
magnitude together with a range error, and the caller discards the error). -/
def goAtoi (ds : List Char) : Int :=
  if (digitsToNat ds : Int) ≤ intMax then (digitsToNat ds : Int) else intMax

/-- The raw score a score token denotes: the parsed digits, or 7 for the X
token. -/
def tokScore : ScoreTok → Int
  | ScoreTok.num ds => goAtoi ds
  | ScoreTok.unsolved => 7

/-- cleanUsername's trimming primitive: strings.Trim removes leading and
trailing characters satisfying the cutset predicate. -/
def goTrimChars (p : Char → Bool) (l : List Char) : List Char :=
  ((l.dropWhile p).reverse.dropWhile p).reverse

/-- The delimiter cutset of cleanUsername: at sign and angle brackets. -/
def isMentionDelim (c : Char) : Bool := c = '@' || c = '<' || c = '>'

/-- cleanUsername: trim whitespace, then trim the at-sign and angle-bracket
delimiters, producing the normalized player identifier. -/
def cleanUsername (raw : List Char) : String :=
  String.mk (goTrimChars isMentionDelim (goTrimChars isGoSpace raw))

/-- Assignment into the daily map (a Go map write): replace the value at the
key if present, otherwise append the binding. -/
def mapAssign : List (String × Int) → String → Int → List (String × Int)
  | [], k, v => [(k, v)]
  | p :: m, k, v => if p.1 == k then (k, v) :: m else p :: mapAssign m k v

/-- The (player, score) assignments one line contributes, in order: nothing
without a score token, else one assignment per mention on the line, all with
the line's score. -/
def lineAssignments (line : List Char) : List (String × Int) :=
  match findScoreToken line with
  | none => []
  | some tok => (findMentions line).map (fun m => (cleanUsername m, tokScore tok))

/-- All (player, score) assignments of a message, in line order. -/
def parseAssignments (msg : String) : List (String × Int) :=
  ((splitLines msg.data).map lineAssignments).flatten

/-- The extraction phase of processWordleResultsMessage: the daily map built
by performing every assignment in order, later assignments to the same key
overwriting earlier ones. -/
def processWordleResultsMessage (msg : String) : List (String × Int) :=
  (parseAssignments msg).foldl (fun m p => mapAssign m p.1 p.2) []

/-- Wrap an integer into the value a 64-bit two's-complement addition
stores: reduce modulo 2 ^ 64 into the interval from -(2 ^ 63) to
2 ^ 63 - 1.  Go's int arithmetic wraps this way on overflow. -/
def wrap64 (x : Int) : Int :=
  (x + 9223372036854775808) % 18446744073709551616 - 9223372036854775808

/-- One row of the leaderboard table. -/
structure LedgerEntry where
  username : String
  score : Int
  days_played : Int
deriving DecidableEq

/-- SELECT score, days_played FROM leaderboard WHERE username = u, taking the
first matching row (the table's UNIQUE constraint makes it the only one). -/
def lookupUser (l : List LedgerEntry) (u : String) : Option LedgerEntry :=
  l.find? (fun e => e.username == u)

/-- updateCumulativeScore: if the user has no row, insert one with the given
score and one day played when incrementDays is set (zero otherwise); if a row
exists, add the score to it and increment days_played when incrementDays is
set.  The additions are 64-bit int additions in the source, so they wrap. -/
def updateCumulativeScore (l : List LedgerEntry) (u : String) (s : Int)
    (incrementDays : Bool) : List LedgerEntry :=
  match lookupUser l u with
  | none => l ++ [⟨u, s, if incrementDays then 1 else 0⟩]
  | some e =>
    l.map (fun e0 =>
      if e0.username == u then
        ⟨e0.username, wrap64 (e.score + s),
          if incrementDays then wrap64 (e.days_played + 1)
          else e.days_played⟩
      else e0)

/-- The one identifier the penalty loop skips, as the source spells it. -/
def excludedUser : String := "Dumb Ass Nigga"

/-- One call to updateCumulativeScore, as issued by the scoring loops. -/
structure Write where
  user : String
  wscore : Int
  incrementDays : Bool
deriving DecidableEq

/-- The trace of updateCumulativeScore calls one scoring run issues: first a
scored, day-incrementing update per daily entry; then a 7-point,
no-day-increment penalty for every known player who is not a daily key and is
not the excluded identifier. -/
def scoringWrites (daily : List (String × Int)) (known : List String) :
    List Write :=
  daily.map (fun p => ⟨p.1, p.2, true⟩) ++
    (known.filter (fun u => (daily.lookup u).isNone && u != excludedUser)).map
      (fun u => ⟨u, 7, false⟩)

/-- Apply one write to the ledger. -/
def applyWrite (l : List LedgerEntry) (w : Write) : List LedgerEntry :=
  updateCumulativeScore l w.user w.wscore w.incrementDays

/-- Apply a trace of writes left to right. -/
def applyWrites (l : List LedgerEntry) (ws : List Write) : List LedgerEntry :=
  ws.foldl applyWrite l

/-- updateScoresBasedOnResults after a successful read of the known players:
the known set is the usernames of the current rows, and the write trace is
folded over the ledger. -/
def updateScoresBasedOnResults (daily : List (String × Int))
    (ledger : List LedgerEntry) : List LedgerEntry :=
  applyWrites ledger (scoringWrites daily (ledger.map LedgerEntry.username))

/-- updateScoresBasedOnResults including its first step: when the query
enumerating known players fails the function logs and returns at once, so
the ledger is left unchanged; otherwise the scoring run proceeds. -/
def updateScoresWithRead (readOk : Bool) (daily : List (String × Int))
    (ledger : List LedgerEntry) : List LedgerEntry :=
  if readOk then updateScoresBasedOnResults daily ledger else ledger

/-- Lexicographic strictly-less on character lists by code point, the order
memcmp induces on the UTF-8 encodings SQLite compares TEXT values with. -/
def strLtB : List Char → List Char → Bool
  | [], [] => false
  | [], _ :: _ => true
  | _ :: _, [] => false
  | a :: as, b :: bs => if a < b then true else if b < a then false else strLtB as bs

/-- Floor of the base-2 logarithm on naturals, by fuel recursion so the
kernel can evaluate it; the fuel bounds the number of halvings. -/
def log2F : Nat → Nat → Nat
  | 0, _ => 0
  | fuel + 1, n => if 2 ≤ n then log2F fuel (n / 2) + 1 else 0

/-- Floor of the base-2 logarithm of a natural below 2 ^ 200. -/
def flog2 (n : Nat) : Nat := log2F 200 n

/-- Round num / den (den positive) to the nearest integer, ties to even: the
core rounding step of IEEE-754 round-to-nearest-even. -/
def roundMantissa (num den : Nat) : Nat :=
  if 2 * (num % den) < den then num / den
  else if den < 2 * (num % den) then num / den + 1
  else if (num / den) % 2 = 0 then num / den else num / den + 1

/-- Floor of the base-2 logarithm of the rational a / d (a, d positive with
a / d ≥ 2 ^ (-64)), computed by scaling a by 2 ^ 64 before the integer
division. -/
def floorLog2Q (a d : Nat) : Int :=
  (flog2 ((a * 18446744073709551616) / d) : Int) - 64

/-- Round (n / d) * 2 ^ off to an IEEE-754 binary64 double, represented
exactly as a mantissa-exponent pair (m, e) denoting m * 2 ^ e with
2 ^ 52 ≤ m.natAbs ≤ 2 ^ 53: round to nearest, ties to even.  Used with d
positive and n.natAbs / d between 2 ^ (-64) and 2 ^ 64, which covers every
conversion and division the leaderboard query performs; double overflow and
subnormals are unreachable there.  `roundMantissaAt` computes the rounded
53-bit mantissa of a / d given k, the floor of the base-2 logarithm of
a / d: it scales whichever side keeps everything integral. -/
def roundMantissaAt (a d : Nat) (k : Int) : Nat :=
  if 0 ≤ 52 - k then roundMantissa (a * 2 ^ (52 - k).toNat) d
  else roundMantissa a (d * 2 ^ (k - 52).toNat)

/-- Round (n / d) * 2 ^ off to the nearest double, ties to even, as a
mantissa-exponent pair; zero inputs (and the unreachable d = 0) give 0. -/
def roundToDbl (n : Int) (d : Nat) (off : Int) : Int × Int :=
  if n = 0 ∨ d = 0 then (0, 0)
  else
    (if n < 0 then -(roundMantissaAt n.natAbs d (floorLog2Q n.natAbs d) : Int)
     else (roundMantissaAt n.natAbs d (floorLog2Q n.natAbs d) : Int),
     floorLog2Q n.natAbs d + off - 52)

/-- The double nearest to an int64 value: the conversion the SQL engine
performs on each integer operand of score * 1.0 / days_played. -/
def dblOfInt (n : Int) : Int × Int := roundToDbl n 1 0

/-- Correctly rounded IEEE-754 division of two doubles (the divisor
positive, as converted days_played values are on the selected rows). -/
def dblDiv (x y : Int × Int) : Int × Int :=
  roundToDbl x.1 y.1.natAbs (x.2 - y.2)

/-- Exact comparison of two mantissa-exponent pairs by scaling to the
smaller exponent; comparison of finite doubles is exact comparison of the
rationals they denote. -/
def dblLtB (x y : Int × Int) : Bool :=
  if x.2 ≤ y.2 then x.1 < y.1 * 2 ^ (y.2 - x.2).toNat
  else x.1 * 2 ^ (x.2 - y.2).toNat < y.1

/-- The double-precision value of score * 1.0 / days_played for a row, as
the SQL engine computes it: convert both operands to doubles, then divide,
every step rounded to nearest with ties to even. -/
def avgD (e : LedgerEntry) : Int × Int :=
  dblDiv (dblOfInt e.score) (dblOfInt e.days_played)

/-- The ORDER BY comparator of the leaderboard query: double-precision
average score ascending, then days_played descending, then username
ascending. -/
def leaderRankLe (a b : LedgerEntry) : Bool :=
  if dblLtB (avgD a) (avgD b) then true
  else if dblLtB (avgD b) (avgD a) then false
  else if b.days_played < a.days_played then true
  else if a.days_played < b.days_played then false
  else strLtB a.username.data b.username.data || a.username == b.username

/-- Insert one row into an already ordered list of rows. -/
def orderedInsert (a : LedgerEntry) : List LedgerEntry → List LedgerEntry
  | [] => [a]
  | b :: l => if leaderRankLe a b then a :: b :: l else b :: orderedInsert a l

/-- Sort leaderboard rows by the ORDER BY comparator. -/
def sortLedger : List LedgerEntry → List LedgerEntry
  | [] => []
  | a :: l => orderedInsert a (sortLedger l)

/-- The rows sendLeaderboard's query returns, in order: the rows with
positive days_played, arranged by the ORDER BY comparator. -/
def sendLeaderboard (ledger : List LedgerEntry) : List LedgerEntry :=
  sortLedger (ledger.filter (fun e => 0 < e.days_played))

/-- The exact rational value a mantissa-exponent pair denotes. -/
def dblVal (p : Int × Int) : ℚ := (p.1 : ℚ) * 2 ^ p.2

/-- The double-precision average of a row, as the exact rational the
computed double denotes. -/
def avgDbl (e : LedgerEntry) : ℚ := dblVal (avgD e)

/-- Modelled from the spec: the real-valued average score
CumulativeScore / DaysPlayed the specification orders by.  The program
computes `avgDbl` instead; the two differ once rounding collapses distinct
quotients. -/
def avgQ (e : LedgerEntry) : ℚ := (e.score : ℚ) / (e.days_played : ℚ)

/-- Modelled from the spec: row a strictly precedes row b in the ordering
the specification asserts, keyed on the real-valued average. -/
def rankBefore (a b : LedgerEntry) : Prop :=
  avgQ a < avgQ b ∨
    (avgQ a = avgQ b ∧
      (b.days_played < a.days_played ∨
        (a.days_played = b.days_played ∧
          strLtB a.username.data b.username.data = true)))

/-- Row a strictly precedes row b in the order the program renders: strictly
smaller double-precision average, or equal doubles and strictly more days
played, or both equal and a strictly smaller username. -/
def rankBeforeD (a b : LedgerEntry) : Prop :=
  avgDbl a < avgDbl b ∨
    (avgDbl a = avgDbl b ∧
      (b.days_played < a.days_played ∨
        (a.days_played = b.days_played ∧
          strLtB a.username.data b.username.data = true)))

/-! ### Extraction lemmas -/

theorem lookup_cons (u : String) (p : String × Int) (m : List (String × Int)) :
    (p :: m).lookup u = if u = p.1 then some p.2 else m.lookup u := by
  rcases p with ⟨k, v⟩
  by_cases h : u = k
  · rw [List.lookup, show (u == k) = true by simp [h]]
    simp [h]
  · rw [List.lookup, show (u == k) = false by simp [h]]
    simp [h]

theorem lookup_mapAssign (m : List (String × Int)) (k u : String) (v : Int) :
    (mapAssign m k v).lookup u = if u = k then some v else m.lookup u := by
  induction m with
  | nil =>
    show [(k, v)].lookup u = _
    rw [lookup_cons]
  | cons p m ih =>
    by_cases hp : p.1 = k
    · rw [show mapAssign (p :: m) k v = (k, v) :: m by simp [mapAssign, hp]]
      rw [lookup_cons, lookup_cons]
      by_cases hu : u = k
      · simp [hu]
      · have hup : ¬ u = p.1 := fun h => hu (h.trans hp)
        simp [hu, hup]
    · rw [show mapAssign (p :: m) k v = p :: mapAssign m k v by
        simp [mapAssign, hp]]
      rw [lookup_cons, ih, lookup_cons]
      by_cases hu : u = p.1
      · have huk : ¬ u = k := fun h => hp (hu.symm.trans h)
        simp [hu, huk, hp]
      · simp [hu]

theorem getLast?_cons_or {α : Type} (a : α) (t : List α) :
    (a :: t).getLast? = t.getLast?.or (some a) := by
  cases t with
  | nil => rfl
  | cons b t =>
    rw [List.getLast?_cons_cons]
    obtain ⟨x, hx⟩ := Option.isSome_iff_exists.mp
      (List.getLast?_isSome.mpr (List.cons_ne_nil b t))
    rw [hx]
    rfl

theorem lookup_foldl_mapAssign (l : List (String × Int)) (u : String) :
    ∀ m, (l.foldl (fun m p => mapAssign m p.1 p.2) m).lookup u =
      ((l.filterMap (fun p => if p.1 = u then some p.2 else none)).getLast?).or
        (m.lookup u) := by
  induction l with
  | nil => intro m; simp
  | cons p l ih =>
    intro m
    rw [List.foldl_cons, ih]
    by_cases hp : p.1 = u
    · rw [List.filterMap_cons_some (b := p.2) (by simp [hp]),
        getLast?_cons_or, Option.or_assoc, lookup_mapAssign,
        if_pos hp.symm]
      congr 1
    · rw [List.filterMap_cons_none (by simp [hp]), lookup_mapAssign,
        if_neg (fun h => hp h.symm)]

theorem mem_mapAssign {q : String × Int} (m : List (String × Int))
    (k : String) (v : Int) (h : q ∈ mapAssign m k v) : q ∈ m ∨ q = (k, v) := by
  induction m with
  | nil => simp [mapAssign] at h; simp [h]
  | cons p m ih =>
    by_cases hp : p.1 = k
    · simp [mapAssign, hp] at h
      rcases h with h | h
      · right; simp [h]
      · left; simp [h]
    · simp [mapAssign, hp] at h
      rcases h with h | h
      · left; simp [h]
      · rcases ih h with h1 | h1
        · left; simp [h1]
        · right; exact h1

theorem mem_foldl_mapAssign {q : String × Int} (l : List (String × Int)) :
    ∀ m, q ∈ l.foldl (fun m p => mapAssign m p.1 p.2) m →
      q ∈ m ∨ q.2 ∈ l.map Prod.snd := by
  induction l with
  | nil => intro m h; exact Or.inl h
  | cons p l ih =>
    intro m h
    rw [List.foldl_cons] at h
    rcases ih _ h with h1 | h1
    · rcases mem_mapAssign _ _ _ h1 with h2 | h2
      · exact Or.inl h2
      · right; simp [h2]
    · right; simp [h1]

theorem score_mem_parseAssignments (msg : String) (x : Int)
    (hx : x ∈ (parseAssignments msg).map Prod.snd) :
    ∃ line ∈ splitLines msg.data, ∃ tok,
      findScoreToken line = some tok ∧ x = tokScore tok := by
  rw [parseAssignments] at hx
  simp only [List.map_flatten, List.mem_flatten, List.map_map,
    List.mem_map] at hx
  obtain ⟨vals, ⟨line, hline, hvals⟩, hxv⟩ := hx
  refine ⟨line, hline, ?_⟩
  subst hvals
  simp only [Function.comp, lineAssignments] at hxv
  cases htok : findScoreToken line with
  | none => rw [htok] at hxv; simp at hxv
  | some tok =>
    rw [htok] at hxv
    simp only [List.map_map, List.mem_map] at hxv
    obtain ⟨m, _, hm⟩ := hxv
    exact ⟨tok, rfl, hm.symm⟩

/-! ### Claims about extraction -/

/-- C9: basic extraction: the message with a one-attempt line for alice and
an X line for bob extracts exactly alice mapped to 1 and bob mapped to 7;
in general a line's score token assigns its score to every normalized
mention found on that line. -/
theorem extract_basic :
    processWordleResultsMessage "1/6 @alice\nX/6 @bob" =
      [("alice", 1), ("bob", 7)] ∧
    (∀ line tok, findScoreToken line = some tok →
      lineAssignments line =
        (findMentions line).map (fun m => (cleanUsername m, tokScore tok))) ∧
    tokScore ScoreTok.unsolved = 7 := by
  refine ⟨by decide, ?_, rfl⟩
  intro line tok h
  simp [lineAssignments, h]

/-- Witness for `extract_basic`: its general clause applied to the concrete
line of the first clause. -/
theorem extract_basic_witness :
    lineAssignments "1/6 @alice".data =
      (findMentions "1/6 @alice".data).map
        (fun m => (cleanUsername m, tokScore (ScoreTok.num ['1']))) :=
  extract_basic.2.1 "1/6 @alice".data (ScoreTok.num ['1']) (by decide)

/-- C6: when the same normalized identifier appears on several result lines
of one message, the extracted map holds the value of its last assignment in
line order; in particular the two-line message assigning alice 1 then 3
extracts alice mapped to 3. -/
theorem extract_last_line_wins :
    (∀ (msg : String) (u : String),
      (processWordleResultsMessage msg).lookup u =
        ((parseAssignments msg).filterMap
          (fun p => if p.1 = u then some p.2 else none)).getLast?) ∧
    processWordleResultsMessage "1/6 @alice\n3/6 @alice" = [("alice", 3)] := by
  constructor
  · intro msg u
    rw [processWordleResultsMessage, lookup_foldl_mapAssign]
    simp
  · decide

/-- C10: identifier normalization can produce the empty string: a mention
token consisting only of delimiter characters is trimmed to the empty
identifier, which is extracted and upserted into the ledger like any other
player. -/
theorem extract_empty_identifier :
    processWordleResultsMessage "1/6 @<>" = [("", 1)] ∧
    processWordleResultsMessage "1/6 @@" = [("", 1)] ∧
    updateScoresBasedOnResults [("", 1)] [] = [⟨"", 1, 1⟩] ∧
    lookupUser (updateScoresBasedOnResults [("", 1)] [⟨"x", 3, 1⟩]) "" =
      some ⟨"", 1, 1⟩ := by
  refine ⟨by decide, by decide, by decide, by decide⟩

/-- C3 counterexample: the score regexp accepts any run of digits before the
slash-six suffix, so the message with a ten-attempts token extracts the
score 10, which is neither in the range 1..6 nor the sentinel 7. -/
theorem extract_score_range_counterexample :
    (processWordleResultsMessage "10/6 @alice").lookup "alice" = some 10 ∧
    ¬ ((1 ≤ (10 : Int) ∧ (10 : Int) ≤ 6) ∨ (10 : Int) = 7) := by
  refine ⟨by decide, by decide⟩

/-- A numeric score token, if present, parses into the range 1..6; the X
token and the absence of a token are unconstrained.  This is the defining
property of the genuine source format. -/
def numTokInRange : Option ScoreTok → Bool
  | some (ScoreTok.num ds) => 1 ≤ goAtoi ds && goAtoi ds ≤ 6
  | _ => true

/-- C3 amended: every extracted RawScore is the value of some score token of
the message, so whenever every numeric score token of the message parses
into the range 1..6 (as tokens of the genuine source format do), every
RawScore is in the range 1..6 or equals the sentinel 7. -/
theorem extract_scores_in_range (msg : String)
    (h : ∀ line ∈ splitLines msg.data,
      numTokInRange (findScoreToken line) = true) :
    ∀ p ∈ processWordleResultsMessage msg,
      (1 ≤ p.2 ∧ p.2 ≤ 6) ∨ p.2 = 7 := by
  intro p hp
  rcases mem_foldl_mapAssign _ _ hp with h0 | h0
  · simp at h0
  · obtain ⟨line, hline, tok, htok, hval⟩ :=
      score_mem_parseAssignments msg p.2 h0
    cases tok with
    | num ds =>
      have hr := h line hline
      rw [htok] at hr
      simp only [numTokInRange, Bool.and_eq_true, decide_eq_true_eq] at hr
      exact Or.inl (hval ▸ hr)
    | unsolved => exact Or.inr hval

/-- Witness for `extract_scores_in_range` at the basic results message and
alice's extracted entry. -/
theorem extract_scores_in_range_witness :
    (("alice", (1 : Int)) ∈ processWordleResultsMessage "1/6 @alice\nX/6 @bob") ∧
    ((1 ≤ (1 : Int) ∧ (1 : Int) ≤ 6) ∨ (1 : Int) = 7) :=
  ⟨by decide,
    extract_scores_in_range "1/6 @alice\nX/6 @bob" (by decide)
      ("alice", 1) (by decide)⟩

/-! ### Claims about the read-failure path -/

/-- C2 counterexample: when enumerating the known players fails, the run
does not continue with an empty known-player view; it applies nothing at
all.  On the empty ledger with a daily result for alice, the read-failure
run leaves the ledger empty, while the claimed degraded behavior would have
inserted alice's row. -/
theorem read_failure_counterexample :
    updateScoresWithRead false [("alice", 1)] [] = [] ∧
    updateScoresBasedOnResults [("alice", 1)] [] = [⟨"alice", 1, 1⟩] ∧
    updateScoresWithRead false [("alice", 1)] [] ≠
      updateScoresBasedOnResults [("alice", 1)] [] := by
  refine ⟨rfl, by decide, by decide⟩

/-- C2 amended: when enumerating the ledger's known players fails, the
scoring function logs and returns immediately, so the daily results are not
applied and the ledger is unchanged; the failure is absorbed (the function
returns normally rather than halting the enclosing run). -/
theorem read_failure_aborts_scoring (daily : List (String × Int))
    (ledger : List LedgerEntry) :
    updateScoresWithRead false daily ledger = ledger ∧
    updateScoresWithRead true daily ledger =
      updateScoresBasedOnResults daily ledger := ⟨rfl, rfl⟩

/-! ### Scoring-run lemmas -/

theorem find?_map_username (l : List LedgerEntry)
    (f : LedgerEntry → LedgerEntry) (hf : ∀ e, (f e).username = e.username)
    (u : String) :
    (l.map f).find? (fun e => e.username == u) =
      (l.find? (fun e => e.username == u)).map f := by
  induction l with
  | nil => rfl
  | cons e l ih =>
    rw [List.map_cons]
    by_cases h : e.username = u
    · simp [List.find?_cons, hf, h]
    · simp [List.find?_cons, hf, h, ih]

theorem lookupUser_username {l : List LedgerEntry} {u : String}
    {e : LedgerEntry} (h : lookupUser l u = some e) : e.username = u := by
  have := List.find?_some h
  simpa using this

theorem lookupUser_map (l : List LedgerEntry) (f : LedgerEntry → LedgerEntry)
    (hf : ∀ e, (f e).username = e.username) (u : String) :
    lookupUser (l.map f) u = (lookupUser l u).map f := by
  rw [lookupUser, lookupUser]
  exact find?_map_username l f hf u

theorem lookupUser_applyWrite_ne (l : List LedgerEntry) (w : Write)
    (u : String) (h : w.user ≠ u) :
    lookupUser (applyWrite l w) u = lookupUser l u := by
  rw [applyWrite, updateCumulativeScore]
  cases hw : lookupUser l w.user with
  | none =>
    rw [lookupUser, List.find?_append]
    have hsing : List.find? (fun e => e.username == u)
        [({ username := w.user, score := w.wscore,
            days_played := if w.incrementDays then 1 else 0 } :
          LedgerEntry)] = none := by
      simp [h]
    rw [hsing, lookupUser]
    cases hfind : List.find? (fun e => e.username == u) l <;> rfl
  | some e0 =>
    rw [lookupUser_map _ _ (fun e => by
      by_cases he : (e.username == w.user) = true <;> simp [he])]
    cases hfind : lookupUser l u with
    | none => rfl
    | some e1 =>
      have he1 : e1.username = u := lookupUser_username hfind
      have hne : ¬ e1.username = w.user := fun hh => h (hh.symm.trans he1)
      simp [hne]

/-- The row one updateCumulativeScore call leaves for its target user, as a
function of the row previously stored for that user. -/
def writeEffect (w : Write) : Option LedgerEntry → LedgerEntry
  | none => ⟨w.user, w.wscore, if w.incrementDays then 1 else 0⟩
  | some e => ⟨e.username, wrap64 (e.score + w.wscore),
      if w.incrementDays then wrap64 (e.days_played + 1)
      else e.days_played⟩

theorem lookupUser_applyWrite_self (l : List LedgerEntry) (w : Write) :
    lookupUser (applyWrite l w) w.user =
      some (writeEffect w (lookupUser l w.user)) := by
  rw [applyWrite, updateCumulativeScore]
  cases hw : lookupUser l w.user with
  | none =>
    rw [writeEffect, lookupUser, List.find?_append]
    rw [lookupUser] at hw
    rw [hw]
    simp
  | some e0 =>
    have he0 : e0.username = w.user := lookupUser_username hw
    rw [writeEffect, lookupUser_map _ _ (fun e => by
      by_cases he : (e.username == w.user) = true <;> simp [he])]
    rw [hw]
    simp [he0]

theorem lookupUser_applyWrites_ne (ws : List Write) (l : List LedgerEntry)
    (u : String) (h : ∀ w ∈ ws, w.user ≠ u) :
    lookupUser (applyWrites l ws) u = lookupUser l u := by
  induction ws generalizing l with
  | nil => rfl
  | cons w ws ih =>
    rw [applyWrites, List.foldl_cons]
    rw [show List.foldl applyWrite (applyWrite l w) ws =
      applyWrites (applyWrite l w) ws from rfl]
    rw [ih _ (fun x hx => h x (List.mem_cons_of_mem _ hx)),
      lookupUser_applyWrite_ne _ _ _ (h w (List.mem_cons_self _ _))]

theorem lookupUser_applyWrites_unique (ws : List Write) (u : String)
    (w : Write) (hw : ws.filter (fun x => x.user == u) = [w]) :
    ∀ l, lookupUser (applyWrites l ws) u =
      some (writeEffect w (lookupUser l u)) := by
  induction ws with
  | nil => simp at hw
  | cons v ws ih =>
    intro l
    by_cases hv : v.user = u
    · rw [List.filter_cons_of_pos (by simp [hv])] at hw
      rw [List.cons.injEq] at hw
      obtain ⟨hvw, hnil⟩ := hw
      have hall : ∀ x ∈ ws, x.user ≠ u := by
        intro x hx hxx
        have hmem : x ∈ ws.filter (fun x => x.user == u) :=
          List.mem_filter.mpr ⟨hx, by simp [hxx]⟩
        rw [hnil] at hmem
        simp at hmem
      rw [applyWrites, List.foldl_cons]
      rw [show List.foldl applyWrite (applyWrite l v) ws =
        applyWrites (applyWrite l v) ws from rfl]
      rw [lookupUser_applyWrites_ne _ _ _ hall, ← hvw, ← hv]
      exact lookupUser_applyWrite_self l v
    · rw [List.filter_cons_of_neg (by simp [hv])] at hw
      rw [applyWrites, List.foldl_cons]
      rw [show List.foldl applyWrite (applyWrite l v) ws =
        applyWrites (applyWrite l v) ws from rfl]
      rw [ih hw (applyWrite l v), lookupUser_applyWrite_ne _ _ _ hv]

theorem lookup_none_keys (daily : List (String × Int)) (u : String)
    (h : daily.lookup u = none) : ∀ p ∈ daily, p.1 ≠ u := by
  induction daily with
  | nil => simp
  | cons p daily ih =>
    rw [lookup_cons] at h
    by_cases hp : u = p.1
    · rw [if_pos hp] at h
      simp at h
    · rw [if_neg hp] at h
      intro q hq
      rcases List.mem_cons.mp hq with hq | hq
      · exact hq ▸ fun hh => hp hh.symm
      · exact ih h q hq

theorem filter_key_of_lookup (daily : List (String × Int)) (u : String)
    (s : Int) (hnd : (daily.map Prod.fst).Nodup)
    (hs : daily.lookup u = some s) :
    daily.filter (fun p => p.1 == u) = [(u, s)] := by
  induction daily with
  | nil => simp at hs
  | cons p daily ih =>
    rw [lookup_cons] at hs
    rw [List.map_cons, List.nodup_cons] at hnd
    by_cases hp : u = p.1
    · rw [if_pos hp] at hs
      injection hs with hs
      rw [List.filter_cons_of_pos (by simp [hp.symm])]
      have hrest : ∀ q ∈ daily, ¬ (q.1 == u) = true := by
        intro q hq hqq
        simp only [beq_iff_eq] at hqq
        exact hnd.1 (List.mem_map.mpr ⟨q, hq, by rw [hqq, hp]⟩)
      rw [List.filter_eq_nil_iff.mpr hrest]
      have hps : p = (u, s) := by
        rcases p with ⟨a, b⟩
        simp only [Prod.mk.injEq]
        exact ⟨hp.symm, hs⟩
      rw [hps]
    · rw [if_neg hp] at hs
      rw [List.filter_cons_of_neg (by
        simp only [beq_iff_eq]
        exact fun h => hp h.symm)]
      exact ih hnd.2 hs

theorem nodup_filter_eq_single (known : List String) (u : String)
    (p : String → Bool) (hnd : known.Nodup) (hu : u ∈ known)
    (hp : p u = true) :
    known.filter (fun x => x == u && p x) = [u] := by
  induction known with
  | nil => simp at hu
  | cons k known ih =>
    rw [List.nodup_cons] at hnd
    by_cases hk : k = u
    · subst hk
      rw [List.filter_cons_of_pos (by simp [hp])]
      have hrest : ∀ x ∈ known, ¬ (x == k && p x) = true := by
        intro x hx hxx
        rw [Bool.and_eq_true] at hxx
        have : x = k := by simpa using hxx.1
        exact hnd.1 (this ▸ hx)
      rw [List.filter_eq_nil_iff.mpr hrest]
    · have hu2 : u ∈ known := by
        rcases List.mem_cons.mp hu with h | h
        · exact absurd h.symm hk
        · exact h
      rw [List.filter_cons_of_neg (by simp [hk])]
      exact ih hnd.2 hu2

theorem filter_map_daily (daily : List (String × Int)) (u : String) :
    ((daily.map (fun p => (⟨p.1, p.2, true⟩ : Write))).filter
        (fun w => w.user == u)) =
      (daily.filter (fun p => p.1 == u)).map
        (fun p => (⟨p.1, p.2, true⟩ : Write)) := by
  induction daily with
  | nil => rfl
  | cons p daily ih =>
    by_cases hp : p.1 = u
    · simp only [List.map_cons, List.filter_cons]
      rw [show ((⟨p.1, p.2, true⟩ : Write).user == u) = true by simp [hp]]
      simp [ih]
    · simp only [List.map_cons, List.filter_cons]
      rw [show ((⟨p.1, p.2, true⟩ : Write).user == u) = false by simp [hp]]
      simp [ih]

theorem filter_map_pen (l : List String) (u : String) :
    ((l.map (fun x => (⟨x, 7, false⟩ : Write))).filter
        (fun w => w.user == u)) =
      (l.filter (fun x => x == u)).map (fun x => (⟨x, 7, false⟩ : Write)) := by
  induction l with
  | nil => rfl
  | cons x l ih =>
    by_cases hx : x = u
    · simp only [List.map_cons, List.filter_cons]
      rw [show ((⟨x, 7, false⟩ : Write).user == u) = true by simp [hx]]
      simp [ih]
    · simp only [List.map_cons, List.filter_cons]
      rw [show ((⟨x, 7, false⟩ : Write).user == u) = false by simp [hx]]
      simp [ih]

theorem nodup_double_filter (known : List String) (u : String)
    (q : String → Bool) (hk : known.Nodup) (hu : u ∈ known)
    (hq : q u = true) :
    (known.filter q).filter (fun x => x == u) = [u] := by
  have hsingle := nodup_filter_eq_single known u q hk hu hq
  rw [List.filter_filter]
  exact hsingle

theorem double_filter_nil (known : List String) (u : String)
    (q : String → Bool) (hq : q u = false) :
    (known.filter q).filter (fun x => x == u) = [] := by
  rw [List.filter_eq_nil_iff]
  intro x hx hxx
  have hxu : x = u := by simpa using hxx
  have := (List.mem_filter.mp hx).2
  rw [hxu, hq] at this
  exact Bool.false_ne_true this

theorem scoringWrites_filter_some (daily : List (String × Int))
    (known : List String) (u : String) (s : Int)
    (hnd : (daily.map Prod.fst).Nodup) (hs : daily.lookup u = some s) :
    (scoringWrites daily known).filter (fun w => w.user == u) =
      [⟨u, s, true⟩] := by
  rw [scoringWrites, List.filter_append, filter_map_daily, filter_map_pen,
    filter_key_of_lookup daily u s hnd hs,
    double_filter_nil _ _ _ (by simp [hs])]
  rfl

theorem scoringWrites_filter_pen (daily : List (String × Int))
    (known : List String) (u : String)
    (hk : known.Nodup) (hu : u ∈ known) (hnone : daily.lookup u = none)
    (hexc : u ≠ excludedUser) :
    (scoringWrites daily known).filter (fun w => w.user == u) =
      [⟨u, 7, false⟩] := by
  rw [scoringWrites, List.filter_append, filter_map_daily, filter_map_pen,
    nodup_double_filter known u _ hk hu (by simp [hnone, hexc]),
    List.filter_eq_nil_iff.mpr (fun p hp hpp =>
      lookup_none_keys daily u hnone p hp (by simpa using hpp))]
  rfl

/-! ### Claims about the scoring engine -/

/-- wrap64 is the identity on values already inside the int64 interval. -/
theorem wrap64_eq_self {x : Int} (h1 : -9223372036854775808 ≤ x)
    (h2 : x ≤ intMax) : wrap64 x = x := by
  have h0 : 0 ≤ x + 9223372036854775808 := by omega
  have h3 : x + 9223372036854775808 < 18446744073709551616 := by
    rw [intMax] at h2
    omega
  rw [wrap64, Int.emod_eq_of_lt h0 h3]
  omega

theorem lookup_some_mem (daily : List (String × Int)) (u : String) (s : Int)
    (h : daily.lookup u = some s) : (u, s) ∈ daily := by
  induction daily with
  | nil => simp at h
  | cons p daily ih =>
    rw [lookup_cons] at h
    by_cases hp : u = p.1
    · rw [if_pos hp] at h
      injection h with h
      have : p = (u, s) := by
        rcases p with ⟨a, b⟩
        exact Prod.ext hp.symm h
      rw [← this]
      exact List.mem_cons_self _ _
    · rw [if_neg hp] at h
      exact List.mem_cons_of_mem _ (ih h)

theorem mem_username_of_lookupUser {ledger : List LedgerEntry} {u : String}
    {e : LedgerEntry} (h : lookupUser ledger u = some e) :
    u ∈ ledger.map LedgerEntry.username :=
  List.mem_map.mpr ⟨e, List.mem_of_find?_eq_some h, lookupUser_username h⟩

theorem scoringWrites_user_ne_excluded (daily : List (String × Int))
    (known : List String) (habsent : daily.lookup excludedUser = none) :
    ∀ w ∈ scoringWrites daily known, w.user ≠ excludedUser := by
  intro w hw
  rw [scoringWrites, List.mem_append] at hw
  rcases hw with hw | hw
  · obtain ⟨p, hp, hpw⟩ := List.mem_map.mp hw
    intro hweq
    rw [← hpw] at hweq
    exact lookup_none_keys daily _ habsent p hp hweq
  · obtain ⟨x, hx, hxw⟩ := List.mem_map.mp hw
    have hq := (List.mem_filter.mp hx).2
    rw [Bool.and_eq_true] at hq
    have hxne : x ≠ excludedUser := by simpa using hq.2
    intro hweq
    rw [← hxw] at hweq
    exact hxne hweq

/-- C1 (amended): the scoring run is a full outer join of the known rows and
the daily results: a daily player with no row is inserted with the daily
score and one day played; a daily player with a row gets the score added and
the day count incremented, both as 64-bit wrapping additions; a known player
missing from the daily results, other than the excluded identifier, gets 7
added (wrapping) with the day count unchanged.  The wrapping sums equal the
exact sums whenever those lie within the int64 interval (third clause), as
in the spec's concrete example (last clause). -/
theorem scoring_full_outer_join (daily : List (String × Int))
    (ledger : List LedgerEntry)
    (hd : (daily.map Prod.fst).Nodup)
    (hl : (ledger.map LedgerEntry.username).Nodup) :
    (∀ u s, daily.lookup u = some s →
      (lookupUser ledger u = none →
        lookupUser (updateScoresBasedOnResults daily ledger) u =
          some ⟨u, s, 1⟩) ∧
      (∀ e, lookupUser ledger u = some e →
        lookupUser (updateScoresBasedOnResults daily ledger) u =
          some ⟨e.username, wrap64 (e.score + s),
            wrap64 (e.days_played + 1)⟩)) ∧
    (∀ u, u ∈ ledger.map LedgerEntry.username → daily.lookup u = none →
      u ≠ excludedUser →
      ∃ e, lookupUser ledger u = some e ∧
        lookupUser (updateScoresBasedOnResults daily ledger) u =
          some ⟨e.username, wrap64 (e.score + 7), e.days_played⟩) ∧
    (∀ x : Int, -9223372036854775808 ≤ x → x ≤ intMax → wrap64 x = x) ∧
    updateScoresBasedOnResults [("alice", 1)]
        [⟨"alice", 5, 2⟩, ⟨"bob", 10, 3⟩] =
      [⟨"alice", 6, 3⟩, ⟨"bob", 17, 3⟩] := by
  refine ⟨?_, ?_, fun x h1 h2 => wrap64_eq_self h1 h2, by decide⟩
  · intro u s hs
    have hres := lookupUser_applyWrites_unique _ u _
      (scoringWrites_filter_some daily (ledger.map LedgerEntry.username)
        u s hd hs) ledger
    constructor
    · intro hnone
      rw [updateScoresBasedOnResults, hres, hnone]
      rfl
    · intro e he
      rw [updateScoresBasedOnResults, hres, he]
      rfl
  · intro u hu hnone hexc
    have hres := lookupUser_applyWrites_unique _ u _
      (scoringWrites_filter_pen daily (ledger.map LedgerEntry.username)
        u hl hu hnone hexc) ledger
    have hsome : (lookupUser ledger u).isSome := by
      rw [lookupUser, List.find?_isSome]
      obtain ⟨e, he, heq⟩ := List.mem_map.mp hu
      exact ⟨e, he, by simp [heq]⟩
    obtain ⟨e, he⟩ := Option.isSome_iff_exists.mp hsome
    refine ⟨e, he, ?_⟩
    rw [updateScoresBasedOnResults, hres, he]
    rfl

/-- C1 counterexample to the exact-sum reading: a stored score of 1 plus a
daily score of MaxInt64 wraps to MinInt64, which is not the exact integer
sum. -/
theorem scoring_exact_sum_counterexample :
    lookupUser (updateScoresBasedOnResults [("alice", intMax)]
        [⟨"alice", 1, 1⟩]) "alice" =
      some ⟨"alice", -9223372036854775808, 2⟩ ∧
    1 + intMax ≠ -9223372036854775808 :=
  ⟨by decide, by decide⟩

/-- Witness for `scoring_full_outer_join` at the spec's concrete example. -/
theorem scoring_full_outer_join_witness :
    ([("alice", (1 : Int))].map Prod.fst).Nodup ∧
    (([⟨"alice", 5, 2⟩, ⟨"bob", 10, 3⟩] :
        List LedgerEntry).map LedgerEntry.username).Nodup ∧
    updateScoresBasedOnResults [("alice", 1)]
        [⟨"alice", 5, 2⟩, ⟨"bob", 10, 3⟩] =
      [⟨"alice", 6, 3⟩, ⟨"bob", 17, 3⟩] :=
  ⟨by decide, by decide,
    (scoring_full_outer_join [("alice", 1)]
      [⟨"alice", 5, 2⟩, ⟨"bob", 10, 3⟩] (by decide) (by decide)).2.2.2⟩

/-- C5: the excluded identifier never receives an absence penalty: when it
is a known player absent from the daily results, its row after the run is
its row before the run. -/
theorem excluded_never_penalized (daily : List (String × Int))
    (ledger : List LedgerEntry)
    (hknown : excludedUser ∈ ledger.map LedgerEntry.username)
    (habsent : daily.lookup excludedUser = none) :
    lookupUser (updateScoresBasedOnResults daily ledger) excludedUser =
      lookupUser ledger excludedUser := by
  apply lookupUser_applyWrites_ne
  intro w hw
  rw [scoringWrites, List.mem_append] at hw
  rcases hw with hw | hw
  · obtain ⟨p, hp, hpw⟩ := List.mem_map.mp hw
    intro hweq
    rw [← hpw] at hweq
    exact lookup_none_keys daily _ habsent p hp hweq
  · obtain ⟨x, hx, hxw⟩ := List.mem_map.mp hw
    have hq := (List.mem_filter.mp hx).2
    rw [Bool.and_eq_true] at hq
    have hxne : x ≠ excludedUser := by simpa using hq.2
    intro hweq
    rw [← hxw] at hweq
    exact hxne hweq

/-- Witness for `excluded_never_penalized` on a two-row ledger where the
excluded identifier is known and absent from the daily results. -/
theorem excluded_never_penalized_witness :
    excludedUser ∈ (([⟨excludedUser, 5, 2⟩, ⟨"alice", 3, 1⟩] :
        List LedgerEntry).map LedgerEntry.username) ∧
    ([("alice", (1 : Int))].lookup excludedUser = none) ∧
    lookupUser (updateScoresBasedOnResults [("alice", 1)]
        [⟨excludedUser, 5, 2⟩, ⟨"alice", 3, 1⟩]) excludedUser =
      lookupUser [⟨excludedUser, 5, 2⟩, ⟨"alice", 3, 1⟩] excludedUser :=
  ⟨by decide, by decide,
    excluded_never_penalized [("alice", 1)]
      [⟨excludedUser, 5, 2⟩, ⟨"alice", 3, 1⟩] (by decide) (by decide)⟩

/-- C7 counterexample: monotonicity fails at reachable inputs: under the
non-negativity hypothesis alone, a stored score of MaxInt64 plus a daily
score of 1 wraps, and the stored cumulative score decreases. -/
theorem monotonicity_counterexample :
    (∀ p ∈ [("alice", (1 : Int))], 0 ≤ p.2) ∧
    lookupUser [(⟨"alice", intMax, 1⟩ : LedgerEntry)] "alice" =
      some ⟨"alice", intMax, 1⟩ ∧
    lookupUser (updateScoresBasedOnResults [("alice", 1)]
        [⟨"alice", intMax, 1⟩]) "alice" =
      some ⟨"alice", -9223372036854775808, 2⟩ ∧
    (-9223372036854775808 : Int) < intMax :=
  ⟨by decide, by decide, by decide, by decide⟩

/-- C7 (amended): cumulative score and days played never decrease in a
scoring run as long as the additions stay inside the int64 range: for a
ledger with unique usernames and a daily result with unique keys and
non-negative scores, a user whose stored row is an in-range int64 value and
whose possible updates (the daily score, the 7-point penalty, the day
increment) do not overflow gets a row with at least the old cumulative score
and at least the old day count. -/
theorem scores_monotone_in_range (daily : List (String × Int))
    (ledger : List LedgerEntry)
    (hd : (daily.map Prod.fst).Nodup)
    (hl : (ledger.map LedgerEntry.username).Nodup)
    (hs : ∀ p ∈ daily, 0 ≤ p.2)
    (u : String) (e : LedgerEntry) (he : lookupUser ledger u = some e)
    (hlo : -9223372036854775808 ≤ e.score)
    (hdlo : -9223372036854775808 ≤ e.days_played)
    (hub : ∀ s, daily.lookup u = some s → e.score + s ≤ intMax)
    (hpen : e.score + 7 ≤ intMax)
    (hdub : e.days_played < intMax) :
    ∃ e2, lookupUser (updateScoresBasedOnResults daily ledger) u = some e2 ∧
      e.score ≤ e2.score ∧ e.days_played ≤ e2.days_played := by
  cases hdl : daily.lookup u with
  | some s =>
    have hres := lookupUser_applyWrites_unique _ u _
      (scoringWrites_filter_some daily (ledger.map LedgerEntry.username)
        u s hd hdl) ledger
    have hs0 : 0 ≤ s := hs (u, s) (lookup_some_mem daily u s hdl)
    refine ⟨writeEffect ⟨u, s, true⟩ (some e),
      by rw [updateScoresBasedOnResults, hres, he], ?_, ?_⟩
    · simp only [writeEffect]
      rw [wrap64_eq_self (by omega) (hub s hdl)]
      omega
    · simp only [writeEffect]
      have hd1 : wrap64 (e.days_played + 1) = e.days_played + 1 :=
        wrap64_eq_self (by omega) (by omega)
      simp [hd1]
  | none =>
    by_cases hexc : u = excludedUser
    · refine ⟨e, ?_, le_refl _, le_refl _⟩
      subst hexc
      rw [updateScoresBasedOnResults,
        lookupUser_applyWrites_ne _ _ _
          (scoringWrites_user_ne_excluded daily _ hdl), he]
    · have hu : u ∈ ledger.map LedgerEntry.username :=
        mem_username_of_lookupUser he
      have hres := lookupUser_applyWrites_unique _ u _
        (scoringWrites_filter_pen daily (ledger.map LedgerEntry.username)
          u hl hu hdl hexc) ledger
      refine ⟨writeEffect ⟨u, 7, false⟩ (some e),
        by rw [updateScoresBasedOnResults, hres, he], ?_, ?_⟩
      · simp only [writeEffect]
        rw [wrap64_eq_self (by omega) hpen]
        omega
      · simp only [writeEffect]
        simp

/-- Witness for `scores_monotone_in_range` on a one-row ledger and a
one-player daily result. -/
theorem scores_monotone_in_range_witness :
    ∃ e2, lookupUser (updateScoresBasedOnResults [("alice", 1)]
        [⟨"alice", 5, 2⟩]) "alice" = some e2 ∧
      (5 : Int) ≤ e2.score ∧ (2 : Int) ≤ e2.days_played :=
  scores_monotone_in_range [("alice", 1)] [⟨"alice", 5, 2⟩]
    (by decide) (by decide) (by decide) "alice" ⟨"alice", 5, 2⟩
    (by decide) (by decide) (by decide)
    (fun s h => by
      rw [show List.lookup "alice" [("alice", (1 : Int))] = some 1 from
        by decide] at h
      injection h with h
      subst h
      decide)
    (by decide) (by decide)

/-- C8: each player is written at most once per run: the write trace of a
run holds at most one update per user; a user present in the daily results
gets exactly the scored, day-incrementing update; a user absent from the
daily results only ever gets the 7-point, no-increment penalty write. -/
theorem one_write_per_player (daily : List (String × Int))
    (ledger : List LedgerEntry)
    (hd : (daily.map Prod.fst).Nodup)
    (hl : (ledger.map LedgerEntry.username).Nodup) :
    ∀ u,
      ((scoringWrites daily (ledger.map LedgerEntry.username)).filter
          (fun w => w.user == u)).length ≤ 1 ∧
      (∀ s, daily.lookup u = some s →
        (scoringWrites daily (ledger.map LedgerEntry.username)).filter
            (fun w => w.user == u) = [⟨u, s, true⟩]) ∧
      (daily.lookup u = none →
        ∀ w ∈ scoringWrites daily (ledger.map LedgerEntry.username),
          w.user = u → w = ⟨u, 7, false⟩) := by
  intro u
  refine ⟨?_, ?_, ?_⟩
  · cases hs : daily.lookup u with
    | some s =>
      rw [scoringWrites_filter_some daily _ u s hd hs]
      simp
    | none =>
      by_cases hmem : u ∈ ledger.map LedgerEntry.username ∧ u ≠ excludedUser
      · rw [scoringWrites_filter_pen daily _ u hl hmem.1 hs hmem.2]
        simp
      · rw [scoringWrites, List.filter_append, filter_map_daily,
          filter_map_pen,
          List.filter_eq_nil_iff.mpr (fun p hp hpp =>
            lookup_none_keys daily u hs p hp (by simpa using hpp))]
        have hpen : ((ledger.map LedgerEntry.username).filter
            (fun x => (daily.lookup x).isNone && x != excludedUser)).filter
              (fun x => x == u) = [] := by
          rw [List.filter_eq_nil_iff]
          intro x hx hxx
          have hxu : x = u := by simpa using hxx
          have hmemf := List.mem_filter.mp hx
          apply hmem
          refine ⟨hxu ▸ hmemf.1, ?_⟩
          have hq := hmemf.2
          rw [hxu, Bool.and_eq_true] at hq
          simpa using hq.2
        rw [hpen]
        decide
  · intro s hs
    exact scoringWrites_filter_some daily _ u s hd hs
  · intro hnone w hw hwu
    rw [scoringWrites, List.mem_append] at hw
    rcases hw with hw | hw
    · obtain ⟨p, hp, hpw⟩ := List.mem_map.mp hw
      rw [← hpw] at hwu
      exact absurd hwu (lookup_none_keys daily u hnone p hp)
    · obtain ⟨x, hx, hxw⟩ := List.mem_map.mp hw
      have hxu : x = u := by
        rw [← hxw] at hwu
        exact hwu
      rw [← hxw, hxu]

/-- Witness for `one_write_per_player` on a concrete run. -/
theorem one_write_per_player_witness :
    ([("alice", (1 : Int))].map Prod.fst).Nodup ∧
    (([(⟨"bob", 10, 3⟩ : LedgerEntry)]).map LedgerEntry.username).Nodup ∧
    ((scoringWrites [("alice", 1)]
        ([(⟨"bob", 10, 3⟩ : LedgerEntry)].map LedgerEntry.username)).filter
          (fun w => w.user == "alice")).length ≤ 1 :=
  ⟨by decide, by decide,
    ((one_write_per_player [("alice", 1)] [⟨"bob", 10, 3⟩]
      (by decide) (by decide)) "alice").1⟩

/-! ### Renderer lemmas -/

theorem strLtB_irrefl (l : List Char) : strLtB l l = false := by
  induction l with
  | nil => rfl
  | cons c l ih => simp [strLtB, lt_irrefl, ih]

theorem strLtB_cons (x y : Char) (as bs : List Char) :
    strLtB (x :: as) (y :: bs) = true ↔
      x < y ∨ (x = y ∧ strLtB as bs = true) := by
  by_cases h1 : x < y
  · simp [strLtB, h1]
  · by_cases h2 : y < x
    · have hne : ¬ x = y := fun h => absurd h2 (h ▸ lt_irrefl y)
      simp [strLtB, h1, h2, hne]
    · have heq : x = y := le_antisymm (not_lt.mp h2) (not_lt.mp h1)
      simp [strLtB, h1, h2, heq]

theorem strLtB_trichot (a : List Char) : ∀ b,
    strLtB a b = true ∨ strLtB b a = true ∨ a = b := by
  induction a with
  | nil =>
    intro b
    cases b with
    | nil => right; right; rfl
    | cons c bs => left; rfl
  | cons c as ih =>
    intro b
    cases b with
    | nil => right; left; rfl
    | cons d bs =>
      rcases lt_trichotomy c d with h | h | h
      · left
        exact (strLtB_cons c d as bs).mpr (Or.inl h)
      · subst h
        rcases ih bs with h1 | h1 | h1
        · left
          exact (strLtB_cons c c as bs).mpr (Or.inr ⟨rfl, h1⟩)
        · right; left
          exact (strLtB_cons c c bs as).mpr (Or.inr ⟨rfl, h1⟩)
        · right; right
          rw [h1]
      · right; left
        exact (strLtB_cons d c bs as).mpr (Or.inl h)

theorem strLtB_trans (a : List Char) : ∀ b c, strLtB a b = true →
    strLtB b c = true → strLtB a c = true := by
  induction a with
  | nil =>
    intro b c hab hbc
    cases b with
    | nil => simp [strLtB] at hab
    | cons y bs =>
      cases c with
      | nil => simp [strLtB] at hbc
      | cons z cs => rfl
  | cons x as ih =>
    intro b c hab hbc
    cases b with
    | nil => simp [strLtB] at hab
    | cons y bs =>
      cases c with
      | nil => simp [strLtB] at hbc
      | cons z cs =>
        rw [strLtB_cons] at hab hbc ⊢
        rcases hab with hab | ⟨hab1, hab2⟩
        · rcases hbc with hbc | ⟨hbc1, hbc2⟩
          · exact Or.inl (lt_trans hab hbc)
          · exact Or.inl (hbc1 ▸ hab)
        · rcases hbc with hbc | ⟨hbc1, hbc2⟩
          · exact Or.inl (lt_of_le_of_lt (le_of_eq hab1) hbc)
          · exact Or.inr ⟨hab1.trans hbc1, ih bs cs hab2 hbc2⟩

theorem twoPow_pos (e : Int) : (0 : ℚ) < 2 ^ e :=
  zpow_pos (by norm_num) e

theorem twoPow_mul (i j : Int) : (2 : ℚ) ^ i * (2 : ℚ) ^ j = 2 ^ (i + j) :=
  (zpow_add₀ two_ne_zero i j).symm

theorem dblLtB_iff (x y : Int × Int) :
    dblLtB x y = true ↔ dblVal x < dblVal y := by
  rw [dblLtB, dblVal, dblVal]
  by_cases h : x.2 ≤ y.2
  · rw [if_pos h, decide_eq_true_eq]
    have e1 : ((y.1 : ℚ) * 2 ^ ((y.2 - x.2).toNat : ℕ)) * 2 ^ x.2 =
        (y.1 : ℚ) * 2 ^ y.2 := by
      rw [mul_assoc]
      congr 1
      rw [← zpow_natCast (2 : ℚ) (y.2 - x.2).toNat, twoPow_mul]
      congr 1
      omega
    constructor
    · intro hlt
      have hq : (x.1 : ℚ) < (y.1 : ℚ) * 2 ^ ((y.2 - x.2).toNat : ℕ) := by
        exact_mod_cast hlt
      have := mul_lt_mul_of_pos_right hq (twoPow_pos x.2)
      rwa [e1] at this
    · intro hlt
      have h2 : (x.1 : ℚ) * 2 ^ x.2 <
          ((y.1 : ℚ) * 2 ^ ((y.2 - x.2).toNat : ℕ)) * 2 ^ x.2 := by
        rwa [e1]
      have := lt_of_mul_lt_mul_right h2 (le_of_lt (twoPow_pos x.2))
      exact_mod_cast this
  · rw [if_neg h, decide_eq_true_eq]
    have e1 : ((x.1 : ℚ) * 2 ^ ((x.2 - y.2).toNat : ℕ)) * 2 ^ y.2 =
        (x.1 : ℚ) * 2 ^ x.2 := by
      rw [mul_assoc]
      congr 1
      rw [← zpow_natCast (2 : ℚ) (x.2 - y.2).toNat, twoPow_mul]
      congr 1
      omega
    constructor
    · intro hlt
      have hq : (x.1 : ℚ) * 2 ^ ((x.2 - y.2).toNat : ℕ) < (y.1 : ℚ) := by
        exact_mod_cast hlt
      have := mul_lt_mul_of_pos_right hq (twoPow_pos y.2)
      rwa [e1] at this
    · intro hlt
      have h2 : ((x.1 : ℚ) * 2 ^ ((x.2 - y.2).toNat : ℕ)) * 2 ^ y.2 <
          (y.1 : ℚ) * 2 ^ y.2 := by
        rwa [e1]
      have := lt_of_mul_lt_mul_right h2 (le_of_lt (twoPow_pos y.2))
      exact_mod_cast this

theorem dblVal_eq_of_not_lt (x y : Int × Int) (h1 : ¬ dblLtB x y = true)
    (h2 : ¬ dblLtB y x = true) : dblVal x = dblVal y := by
  have n1 : ¬ dblVal x < dblVal y := fun h => h1 ((dblLtB_iff x y).mpr h)
  have n2 : ¬ dblVal y < dblVal x := fun h => h2 ((dblLtB_iff y x).mpr h)
  exact le_antisymm (not_lt.mp n2) (not_lt.mp n1)

theorem leaderRankLe_iff (a b : LedgerEntry) :
    leaderRankLe a b = true ↔
      (avgDbl a < avgDbl b ∨ (avgDbl a = avgDbl b ∧
        (b.days_played < a.days_played ∨
          (a.days_played = b.days_played ∧
            (strLtB a.username.data b.username.data = true ∨
              a.username = b.username))))) := by
  rw [leaderRankLe]
  by_cases h1 : dblLtB (avgD a) (avgD b) = true
  · have hq : avgDbl a < avgDbl b := (dblLtB_iff _ _).mp h1
    simp [h1, hq]
  · by_cases h2 : dblLtB (avgD b) (avgD a) = true
    · have hq : avgDbl b < avgDbl a := (dblLtB_iff _ _).mp h2
      have hn : ¬ avgDbl a < avgDbl b := lt_asymm hq
      have hne : ¬ avgDbl a = avgDbl b := fun h => absurd hq (h ▸ lt_irrefl _)
      simp [h1, h2, hn, hne]
    · have heq : avgDbl a = avgDbl b := dblVal_eq_of_not_lt _ _ h1 h2
      have hn : ¬ avgDbl a < avgDbl b := heq ▸ lt_irrefl _
      by_cases h3 : b.days_played < a.days_played
      · simp [h1, h2, h3, heq, hn]
      · by_cases h4 : a.days_played < b.days_played
        · have hd : ¬ a.days_played = b.days_played :=
            fun h => absurd h4 (h ▸ lt_irrefl _)
          simp [h1, h2, h3, h4, hd, hn]
        · have hdeq : a.days_played = b.days_played :=
            le_antisymm (not_lt.mp h3) (not_lt.mp h4)
          simp [h1, h2, h3, h4, hdeq, heq, hn, beq_iff_eq]

theorem leaderRankLe_total (a b : LedgerEntry) :
    leaderRankLe a b = true ∨ leaderRankLe b a = true := by
  rw [leaderRankLe, leaderRankLe]
  by_cases h1 : dblLtB (avgD a) (avgD b) = true
  · left
    simp [h1]
  · by_cases h2 : dblLtB (avgD b) (avgD a) = true
    · right
      simp [h2]
    · by_cases h3 : b.days_played < a.days_played
      · left
        simp [h1, h2, h3]
      · by_cases h4 : a.days_played < b.days_played
        · right
          simp [h1, h2, h3, h4]
        · rcases strLtB_trichot a.username.data b.username.data with h | h | h
          · left
            simp [h1, h2, h3, h4, h]
          · right
            simp [h1, h2, h3, h4, h]
          · left
            have : a.username = b.username := String.ext h
            simp [h1, h2, h3, h4, this]

theorem leaderRankLe_trans (a b c : LedgerEntry)
    (hab : leaderRankLe a b = true) (hbc : leaderRankLe b c = true) :
    leaderRankLe a c = true := by
  rw [leaderRankLe_iff a b] at hab
  rw [leaderRankLe_iff b c] at hbc
  rw [leaderRankLe_iff a c]
  rcases hab with hab | ⟨habq, habr⟩
  · rcases hbc with hbc | ⟨hbcq, _⟩
    · exact Or.inl (lt_trans hab hbc)
    · exact Or.inl (hbcq ▸ hab)
  · rcases hbc with hbc | ⟨hbcq, hbcr⟩
    · exact Or.inl (lt_of_le_of_lt (le_of_eq habq) hbc)
    · refine Or.inr ⟨habq.trans hbcq, ?_⟩
      rcases habr with habd | ⟨habd, habu⟩
      · rcases hbcr with hbcd | ⟨hbcd, _⟩
        · exact Or.inl (lt_trans hbcd habd)
        · exact Or.inl (hbcd ▸ habd)
      · rcases hbcr with hbcd | ⟨hbcd, hbcu⟩
        · exact Or.inl (habd ▸ hbcd)
        · refine Or.inr ⟨habd.trans hbcd, ?_⟩
          rcases habu with habu | habu
          · rcases hbcu with hbcu | hbcu
            · exact Or.inl (strLtB_trans _ _ _ habu hbcu)
            · exact Or.inl (hbcu ▸ habu)
          · rcases hbcu with hbcu | hbcu
            · exact Or.inl (habu ▸ hbcu)
            · exact Or.inr (habu.trans hbcu)

theorem orderedInsert_perm (a : LedgerEntry) (l : List LedgerEntry) :
    (orderedInsert a l).Perm (a :: l) := by
  induction l with
  | nil => exact List.Perm.refl _
  | cons b l ih =>
    rw [orderedInsert]
    by_cases h : leaderRankLe a b = true
    · rw [if_pos h]
    · rw [if_neg h]
      exact (ih.cons b).trans (List.Perm.swap a b l)

theorem sortLedger_perm (l : List LedgerEntry) : (sortLedger l).Perm l := by
  induction l with
  | nil => exact List.Perm.refl _
  | cons a l ih =>
    rw [sortLedger]
    exact (orderedInsert_perm a (sortLedger l)).trans (ih.cons a)

theorem sorted_orderedInsert (a : LedgerEntry) (l : List LedgerEntry)
    (hs : l.Pairwise (fun x y => leaderRankLe x y = true)) :
    (orderedInsert a l).Pairwise (fun x y => leaderRankLe x y = true) := by
  induction l with
  | nil => simp [orderedInsert]
  | cons b l ih =>
    rw [orderedInsert]
    by_cases h : leaderRankLe a b = true
    · rw [if_pos h, List.pairwise_cons]
      refine ⟨?_, hs⟩
      intro x hx
      rcases List.mem_cons.mp hx with hx | hx
      · exact hx ▸ h
      · exact leaderRankLe_trans a b x h ((List.pairwise_cons.mp hs).1 x hx)
    · rw [if_neg h]
      rw [List.pairwise_cons] at hs
      have hba : leaderRankLe b a = true := by
        rcases leaderRankLe_total a b with h1 | h1
        · exact absurd h1 h
        · exact h1
      rw [List.pairwise_cons]
      refine ⟨?_, ih hs.2⟩
      intro x hx
      rcases List.mem_cons.mp ((orderedInsert_perm a l).mem_iff.mp hx)
          with hx1 | hx1
      · exact hx1 ▸ hba
      · exact hs.1 x hx1

theorem sorted_sortLedger (l : List LedgerEntry) :
    (sortLedger l).Pairwise (fun x y => leaderRankLe x y = true) := by
  induction l with
  | nil => simp [sortLedger]
  | cons a l ih =>
    rw [sortLedger]
    exact sorted_orderedInsert a (sortLedger l) ih

theorem rankBeforeD_of_le (a b : LedgerEntry)
    (hne : a.username ≠ b.username)
    (h : leaderRankLe a b = true) : rankBeforeD a b := by
  rcases (leaderRankLe_iff a b).mp h with h1 | ⟨h1, h2⟩
  · exact Or.inl h1
  · refine Or.inr ⟨h1, ?_⟩
    rcases h2 with h2 | ⟨h2, h3⟩
    · exact Or.inl h2
    · refine Or.inr ⟨h2, ?_⟩
      rcases h3 with h3 | h3
      · exact h3
      · exact absurd h3 hne

theorem log2F_spec : ∀ (fuel n : Nat), 1 ≤ n → n < 2 ^ fuel →
    2 ^ log2F fuel n ≤ n ∧ n < 2 ^ (log2F fuel n + 1) := by
  intro fuel
  induction fuel with
  | zero =>
    intro n h1 h2
    norm_num at h2
    omega
  | succ f ih =>
    intro n h1 h2
    rw [log2F]
    by_cases h : 2 ≤ n
    · rw [if_pos h]
      have hp : (2 : Nat) ^ (f + 1) = 2 * 2 ^ f := by ring
      have hh1 : 1 ≤ n / 2 := by omega
      have hh2 : n / 2 < 2 ^ f := by omega
      obtain ⟨ha, hb⟩ := ih (n / 2) hh1 hh2
      have p1 : (2 : Nat) ^ (log2F f (n / 2) + 1) =
          2 * 2 ^ log2F f (n / 2) := by ring
      have p2 : (2 : Nat) ^ (log2F f (n / 2) + 1 + 1) =
          2 * 2 ^ (log2F f (n / 2) + 1) := by ring
      constructor
      · omega
      · omega
    · rw [if_neg h]
      have hn1 : n = 1 := by omega
      subst hn1
      norm_num

theorem flog2_spec (n : Nat) (h1 : 1 ≤ n) (h2 : n < 2 ^ 200) :
    2 ^ flog2 n ≤ n ∧ n < 2 ^ (flog2 n + 1) :=
  log2F_spec 200 n h1 h2

theorem flog2_unique (m j : Nat) (h1 : 2 ^ j ≤ m) (h2 : m < 2 ^ (j + 1))
    (hm : m < 2 ^ 200) : flog2 m = j := by
  have hj1 : 1 ≤ m := le_trans Nat.one_le_two_pow h1
  obtain ⟨u1, u2⟩ := flog2_spec m hj1 hm
  rcases Nat.lt_trichotomy (flog2 m) j with hlt | heq | hgt
  · have hmono : 2 ^ (flog2 m + 1) ≤ 2 ^ j :=
      Nat.pow_le_pow_right (by norm_num) (by omega)
    omega
  · exact heq
  · have hmono : 2 ^ (j + 1) ≤ 2 ^ flog2 m :=
      Nat.pow_le_pow_right (by norm_num) (by omega)
    omega

theorem dblOfInt_exact (n : Int) (h : n.natAbs ≤ 2 ^ 53) :
    dblVal (dblOfInt n) = (n : ℚ) := by
  by_cases h0 : n = 0
  · subst h0
    simp [dblOfInt, roundToDbl, dblVal]
  · have ha1 : 1 ≤ n.natAbs := Nat.one_le_iff_ne_zero.mpr
      (Int.natAbs_ne_zero.mpr h0)
    have hbounds := flog2_spec n.natAbs ha1 (lt_of_le_of_lt h (by norm_num))
    have hkey : floorLog2Q n.natAbs 1 = (flog2 n.natAbs : Int) := by
      rw [floorLog2Q, Nat.div_one]
      have hshift : flog2 (n.natAbs * 18446744073709551616) =
          flog2 n.natAbs + 64 := by
        apply flog2_unique
        · have e64 : (18446744073709551616 : Nat) = 2 ^ 64 := by norm_num
          rw [e64, pow_add]
          exact mul_le_mul_of_nonneg_right hbounds.1 (Nat.zero_le _)
        · have e64 : (18446744073709551616 : Nat) = 2 ^ 64 := by norm_num
          rw [e64, show flog2 n.natAbs + 64 + 1 = (flog2 n.natAbs + 1) + 64
            from by omega, pow_add]
          exact mul_lt_mul_of_pos_right hbounds.2 (by norm_num)
        · calc n.natAbs * 18446744073709551616
              ≤ 2 ^ 53 * 18446744073709551616 :=
                mul_le_mul_of_nonneg_right h (Nat.zero_le _)
            _ < 2 ^ 200 := by norm_num
      rw [hshift]
      push_cast
      omega
    have hK53 : flog2 n.natAbs ≤ 53 := by
      have e53 : (2 : Nat) ^ 53 = 9007199254740992 := by norm_num
      by_contra hgt
      have hmono : 2 ^ 54 ≤ 2 ^ flog2 n.natAbs :=
        Nat.pow_le_pow_right (by norm_num) (by omega)
      have e54 : (2 : Nat) ^ 54 = 18014398509481984 := by norm_num
      have := hbounds.1
      omega
    by_cases hK52 : flog2 n.natAbs ≤ 52
    · have hcond : (0 : Int) ≤ 52 - (flog2 n.natAbs : Int) := by omega
      have htn : ((52 : Int) - (flog2 n.natAbs : Int)).toNat =
          52 - flog2 n.natAbs := by omega
      have hmant : roundMantissaAt n.natAbs 1 (flog2 n.natAbs : Int) =
          n.natAbs * 2 ^ (52 - flog2 n.natAbs) := by
        rw [roundMantissaAt, if_pos hcond, htn, roundMantissa]
        simp [Nat.mod_one, Nat.div_one]
      have hpair : dblOfInt n =
          (if n < 0 then -((n.natAbs * 2 ^ (52 - flog2 n.natAbs) : Nat) : Int)
           else ((n.natAbs * 2 ^ (52 - flog2 n.natAbs) : Nat) : Int),
           (flog2 n.natAbs : Int) + 0 - 52) := by
        rw [dblOfInt, roundToDbl, if_neg (by simp [h0]), hkey, hmant]
      have hone : (2 : ℚ) ^ (52 - flog2 n.natAbs : ℕ) *
          2 ^ ((flog2 n.natAbs : Int) + 0 - 52) = 1 := by
        rw [← zpow_natCast (2 : ℚ) (52 - flog2 n.natAbs), twoPow_mul,
          show ((52 - flog2 n.natAbs : ℕ) : ℤ) +
            ((flog2 n.natAbs : Int) + 0 - 52) = 0 from by omega]
        norm_num
      by_cases hneg : n < 0
      · rw [hpair, if_pos hneg, dblVal]
        push_cast
        rw [abs_of_neg (show (n : ℚ) < 0 from by exact_mod_cast hneg)]
        linear_combination (n : ℚ) * hone
      · rw [hpair, if_neg hneg, dblVal]
        push_cast
        rw [abs_of_nonneg
          (show (0 : ℚ) ≤ (n : ℚ) from by exact_mod_cast not_lt.mp hneg)]
        linear_combination (n : ℚ) * hone
    · have hK : flog2 n.natAbs = 53 := by omega
      have e53 : (2 : Nat) ^ 53 = 9007199254740992 := by norm_num
      have e54 : (2 : Nat) ^ (53 + 1) = 18014398509481984 := by norm_num
      have ha : n.natAbs = 9007199254740992 := by
        have h1 := hbounds.1
        have h2 := hbounds.2
        rw [hK] at h1 h2
        omega
      rcases Int.natAbs_eq n with hn | hn
      · rw [hn, ha]
        have hc : dblOfInt ((9007199254740992 : Nat) : Int) =
            (4503599627370496, 1) := by decide
        rw [hc, dblVal]
        norm_num
      · rw [hn, ha]
        have hc : dblOfInt (-((9007199254740992 : Nat) : Int)) =
            (-4503599627370496, 1) := by decide
        rw [hc, dblVal]
        norm_num

/-! ### Claim about the renderer -/

/-- C4 counterexample to the real-valued-average reading: at scores near
2 ^ 53 the int-to-double conversion collapses distinct values (ties to
even), the computed averages compare equal, and the tie-breaks take over:
the program renders the row with the strictly larger real average first,
so the output is not pairwise ordered by real-valued average. -/
theorem leaderboard_order_counterexample :
    (([⟨"b", 9007199254740992, 1⟩, ⟨"a", 9007199254740993, 1⟩] :
        List LedgerEntry).map LedgerEntry.username).Nodup ∧
    sendLeaderboard [⟨"b", 9007199254740992, 1⟩,
        ⟨"a", 9007199254740993, 1⟩] =
      [⟨"a", 9007199254740993, 1⟩, ⟨"b", 9007199254740992, 1⟩] ∧
    avgQ ⟨"b", 9007199254740992, 1⟩ < avgQ ⟨"a", 9007199254740993, 1⟩ ∧
    ¬ (sendLeaderboard [⟨"b", 9007199254740992, 1⟩,
        ⟨"a", 9007199254740993, 1⟩]).Pairwise rankBefore := by
  have hout : sendLeaderboard [⟨"b", 9007199254740992, 1⟩,
      ⟨"a", 9007199254740993, 1⟩] =
    [⟨"a", 9007199254740993, 1⟩, ⟨"b", 9007199254740992, 1⟩] := by decide
  have hlt : avgQ ⟨"b", 9007199254740992, 1⟩ <
      avgQ ⟨"a", 9007199254740993, 1⟩ := by
    norm_num [avgQ]
  refine ⟨by decide, hout, hlt, ?_⟩
  rw [hout]
  intro hp
  have h1 := (List.pairwise_cons.mp hp).1 ⟨"b", 9007199254740992, 1⟩
    (List.mem_cons_self _ _)
  rcases h1 with h1 | ⟨h1, _⟩
  · exact absurd h1 (lt_asymm hlt)
  · rw [h1] at hlt
    exact lt_irrefl _ hlt

/-- C4 (amended): the rendered leaderboard consists of exactly the rows
with a positive days_played count (rows with zero days never appear),
arranged so that each row strictly precedes the next by ascending
double-precision average score — the value of score * 1.0 / days_played as
the SQL engine computes it in IEEE-754 binary64 — with ties (equal doubles)
broken by descending days_played and then ascending username.  The
conversion to double is exact for integers of magnitude up to 2 ^ 53
(fourth clause), and on the small concrete ledger of the last clause the
rendered order coincides with the real-valued-average order. -/
theorem leaderboard_rows_double (ledger : List LedgerEntry)
    (hl : (ledger.map LedgerEntry.username).Nodup) :
    (sendLeaderboard ledger).Perm
      (ledger.filter (fun e => 0 < e.days_played)) ∧
    (∀ e ∈ sendLeaderboard ledger, 0 < e.days_played) ∧
    (sendLeaderboard ledger).Pairwise rankBeforeD ∧
    (∀ n : Int, n.natAbs ≤ 2 ^ 53 → dblVal (dblOfInt n) = (n : ℚ)) ∧
    sendLeaderboard [⟨"b", 2, 1⟩, ⟨"c", 0, 0⟩, ⟨"a", 4, 2⟩, ⟨"d", 6, 3⟩] =
      [⟨"d", 6, 3⟩, ⟨"a", 4, 2⟩, ⟨"b", 2, 1⟩] := by
  have hperm : (sendLeaderboard ledger).Perm
      (ledger.filter (fun e => 0 < e.days_played)) :=
    sortLedger_perm _
  have hposf : ∀ x ∈ ledger.filter (fun e => 0 < e.days_played),
      0 < x.days_played := by
    intro x hx
    have := (List.mem_filter.mp hx).2
    simpa using this
  have hpos : ∀ e ∈ sendLeaderboard ledger, 0 < e.days_played :=
    fun e he => hposf e (hperm.mem_iff.mp he)
  refine ⟨hperm, hpos, ?_, fun n hn => dblOfInt_exact n hn, by decide⟩
  have hsorted := sorted_sortLedger
    (ledger.filter (fun e => 0 < e.days_played))
  have hndf : ((ledger.filter (fun e => 0 < e.days_played)).map
      LedgerEntry.username).Nodup :=
    ((List.filter_sublist ledger).map LedgerEntry.username).nodup hl
  have hnds : ((sendLeaderboard ledger).map LedgerEntry.username).Nodup :=
    (hperm.map LedgerEntry.username).symm.nodup hndf
  have hnep : (sendLeaderboard ledger).Pairwise
      (fun x y : LedgerEntry => x.username ≠ y.username) :=
    List.pairwise_map.mp hnds
  have hboth := List.Pairwise.and hsorted hnep
  exact hboth.imp (fun {a b} hab => rankBeforeD_of_le a b hab.2 hab.1)

/-- Witness for `leaderboard_rows_double` on a four-row ledger with an
average-score tie and a zero-days row. -/
theorem leaderboard_rows_double_witness :
    (([⟨"b", 2, 1⟩, ⟨"c", 0, 0⟩, ⟨"a", 4, 2⟩, ⟨"d", 6, 3⟩] :
        List LedgerEntry).map LedgerEntry.username).Nodup ∧
    ((sendLeaderboard [⟨"b", 2, 1⟩, ⟨"c", 0, 0⟩, ⟨"a", 4, 2⟩,
        ⟨"d", 6, 3⟩]).Perm
      (([⟨"b", 2, 1⟩, ⟨"c", 0, 0⟩, ⟨"a", 4, 2⟩, ⟨"d", 6, 3⟩] :
        List LedgerEntry).filter (fun e => 0 < e.days_played)) ∧
    (∀ e ∈ sendLeaderboard [⟨"b", 2, 1⟩, ⟨"c", 0, 0⟩, ⟨"a", 4, 2⟩,
        ⟨"d", 6, 3⟩], 0 < e.days_played) ∧
    (sendLeaderboard [⟨"b", 2, 1⟩, ⟨"c", 0, 0⟩, ⟨"a", 4, 2⟩,
      ⟨"d", 6, 3⟩]).Pairwise rankBeforeD ∧
    (∀ n : Int, n.natAbs ≤ 2 ^ 53 → dblVal (dblOfInt n) = (n : ℚ)) ∧
    sendLeaderboard [⟨"b", 2, 1⟩, ⟨"c", 0, 0⟩, ⟨"a", 4, 2⟩, ⟨"d", 6, 3⟩] =
      [⟨"d", 6, 3⟩, ⟨"a", 4, 2⟩, ⟨"b", 2, 1⟩]) :=
  ⟨by decide,
    leaderboard_rows_double
      [⟨"b", 2, 1⟩, ⟨"c", 0, 0⟩, ⟨"a", 4, 2⟩, ⟨"d", 6, 3⟩] (by decide)⟩

end WordleLeaderboard
